import Mathlib

/-!
Shallow embedding of the kemi resilient-fetch-and-cache layer.

The definitions below translate, function by function, the Python source in
src/kemi-api: the two-tier cache (main.py CacheManager together with
chroma_cache.py ChromaPersistentCache), the MCP manager
(mcp_manager.py MCPManager: sliding-window rate limiter, circuit breaker and
retry loop), the per-key request coalescer (main.py debounced_request) and the
top-gainers endpoint pipeline (main.py get_top_gainers_losers.fetch_data).

Modelling conventions: wall-clock instants and durations are rationals
(seconds); Python dictionaries become functions into Option; the upstream
collaborator and the persistent store's possible failures become explicit
outcome parameters; per-claim instrumentation (such as the count of upstream
invocations or the list of backoff sleeps) is carried alongside the
translated state transitions.
-/

namespace Kemi

/-- Pointwise update of a finite map modelled as a function. -/
def updMap {K : Type} [DecidableEq K] {E : Type} (f : K → Option E) (k : K) (v : Option E) :
    K → Option E :=
  fun q => if q = k then v else f q

/-- Entry of the in-memory hot tier: main.py line 103 stores
`self.cache[key] = (data, time.time(), ttl)`. -/
structure MemEntry (V : Type) where
  data : V
  timestamp : ℚ
  ttl : ℚ
deriving DecidableEq

/-- Entry of the ChromaDB persistent tier: chroma_cache.py `set` upserts the
serialized payload together with a timestamp metadata field. -/
structure ChromaEntry (V : Type) where
  data : V
  timestamp : ℚ
deriving DecidableEq

/-- Joint state of CacheManager (main.py) and ChromaPersistentCache
(chroma_cache.py). `chromaAvailable` models `self.chroma_cache` in
CacheManager and `self.collection` in ChromaPersistentCache being non-None;
serialization of the payload is modelled as the identity. -/
structure CacheState (K V : Type) where
  mem : K → Option (MemEntry V)
  chromaAvailable : Bool
  chroma : K → Option (ChromaEntry V)

variable {K V : Type} [DecidableEq K]

/-- chroma_cache.py ChromaPersistentCache.get: returns the stored payload if the
entry exists and `utcnow() - cached_time < timedelta(hours=max_age_hours)`;
otherwise (expired, missing, or store unavailable) returns nothing and leaves
the entry in place. -/
def ChromaPersistentCache.get (s : CacheState K V) (k : K) (maxAgeHours now : ℚ) : Option V :=
  if s.chromaAvailable = true then
    match s.chroma k with
    | some e => if now - e.timestamp < maxAgeHours * 3600 then some e.data else none
    | none => none
  else none

/-- chroma_cache.py ChromaPersistentCache.get_stale: returns the payload while
`utcnow() - cached_time < timedelta(days=max_stale_days)`; an older entry is
deleted from the collection and nothing is returned. -/
def ChromaPersistentCache.getStale (s : CacheState K V) (k : K) (maxStaleDays now : ℚ) :
    Option V × CacheState K V :=
  if s.chromaAvailable = true then
    match s.chroma k with
    | some e =>
      if now - e.timestamp < maxStaleDays * 86400 then (some e.data, s)
      else (none, { s with chroma := updMap s.chroma k none })
    | none => (none, s)
  else (none, s)

/-- chroma_cache.py ChromaPersistentCache.set: upserts the entry with a fresh
timestamp; every failure is caught inside the method (and CacheManager.set
wraps the call in try/except as well), modelled by the `okc` flag: a failed
upsert leaves the store unchanged. -/
def ChromaPersistentCache.set (s : CacheState K V) (k : K) (v : V) (now : ℚ) (okc : Bool) :
    CacheState K V :=
  if s.chromaAvailable = true ∧ okc = true then
    { s with chroma := updMap s.chroma k (some ⟨v, now⟩) }
  else s

/-- main.py CacheManager.set: unconditionally writes the in-memory tier, then
writes the persistent tier only when it is available and `ttl > 60`. -/
def CacheManager.set (s : CacheState K V) (k : K) (v : V) (ttl now : ℚ) (okc : Bool) :
    CacheState K V :=
  let s1 : CacheState K V := { s with mem := updMap s.mem k (some ⟨v, now, ttl⟩) }
  if s1.chromaAvailable = true ∧ 60 < ttl then ChromaPersistentCache.set s1 k v now okc
  else s1

/-- Result of CacheManager.get, instrumented with `persistentRead`: whether the
call reached the ChromaDB fallback read (`self.chroma_cache.get(...)`). -/
structure GetResult (K V : Type) where
  value : Option V
  state : CacheState K V
  persistentRead : Bool

/-- ChromaDB fallback taken by main.py CacheManager.get when the in-memory
entry is absent or expired: reads the persistent tier with `max_age_hours=1`
and, on a hit, promotes the data into the memory tier via
`self.set(key, chroma_data, 300)`. -/
def CacheManager.getFallback (s : CacheState K V) (k : K) (now : ℚ) (okc : Bool) :
    GetResult K V :=
  if s.chromaAvailable = true then
    match ChromaPersistentCache.get s k 1 now with
    | some v => ⟨some v, CacheManager.set s k v 300 now okc, true⟩
    | none => ⟨none, s, true⟩
  else ⟨none, s, false⟩

/-- main.py CacheManager.get: returns the in-memory entry while
`time.time() - timestamp < ttl`; an expired entry is not removed, and the call
falls through to the ChromaDB fallback read. -/
def CacheManager.get (s : CacheState K V) (k : K) (now : ℚ) (okc : Bool) : GetResult K V :=
  match s.mem k with
  | some e =>
    if now - e.timestamp < e.ttl then ⟨some e.data, s, false⟩
    else CacheManager.getFallback s k now okc
  | none => CacheManager.getFallback s k now okc

/-- main.py CacheManager.get_stale: returns the in-memory entry whenever one
exists, with no bound on its age (only its age is logged); otherwise falls back
to `chroma_cache.get_stale(key, max_stale_days=1)`. -/
def CacheManager.getStale (s : CacheState K V) (k : K) (now : ℚ) : Option V × CacheState K V :=
  match s.mem k with
  | some e => (some e.data, s)
  | none =>
    if s.chromaAvailable = true then ChromaPersistentCache.getStale s k 1 now
    else (none, s)

/-- Freshness of the hot-tier entry for `k` at instant `now` (the condition of
main.py line 65). -/
def memFresh (s : CacheState K V) (k : K) (now : ℚ) : Bool :=
  match s.mem k with
  | some e => decide (now - e.timestamp < e.ttl)
  | none => false

/-- Outcome of one run of the upstream fetch pipeline as observed by
get_top_gainers_losers.fetch_data: `mcp_manager.get_top_gainers_losers`
returned data, returned None, or the try-block raised. -/
inductive Upstream (V : Type)
  | ok (v : V)
  | noData
  | raised
deriving DecidableEq

/-- main.py get_top_gainers_losers.fetch_data (lines 367-406): on data, cache
the shaped response with the configured TTL (600 s); on no data, fall back to
the stale cache, else cache the typed empty response for 60 s and return it;
on an exception, fall back to the stale cache, else return the empty response
without caching it. -/
def fetchData (s : CacheState K V) (k : K) (now : ℚ) (up : Upstream V) (emptyResp : V)
    (okc : Bool) : V × CacheState K V :=
  match up with
  | .ok v => (v, CacheManager.set s k v 600 now okc)
  | .noData =>
    match CacheManager.getStale s k now with
    | (some v, s1) => (v, s1)
    | (none, s1) => (emptyResp, CacheManager.set s1 k emptyResp 60 now okc)
  | .raised =>
    match CacheManager.getStale s k now with
    | (some v, s1) => (v, s1)
    | (none, s1) => (emptyResp, s1)

/-- Result of one sequential request to the endpoint, instrumented with the
number of upstream fetch-pipeline invocations it performed. -/
structure EndpointResult (K V : Type) where
  value : V
  state : CacheState K V
  upstreamCalls : Nat

/-- main.py get_top_gainers_losers for one sequential request: try
`cache_manager.get` first and return a hit with zero upstream invocations;
on a miss run fetch_data (one invocation of the fetch pipeline). -/
def endpoint (s : CacheState K V) (k : K) (now : ℚ) (up : Upstream V) (emptyResp : V)
    (okc : Bool) : EndpointResult K V :=
  let g := CacheManager.get s k now okc
  match g.value with
  | some v => ⟨v, g.state, 0⟩
  | none =>
    let fr := fetchData g.state k now up emptyResp okc
    ⟨fr.1, fr.2, 1⟩

/-- mcp_manager.py MCPManager circuit-breaker fields:
`_circuit_breaker_open` and `_circuit_breaker_opened_at`. -/
structure BreakerState where
  breakerOpen : Bool
  openedAt : ℚ
deriving DecidableEq

/-- mcp_manager.py `self._circuit_breaker_timeout = 300` (5 minutes). -/
def circuitBreakerTimeout : ℚ := 300

/-- mcp_manager.py MCPManager._check_circuit_breaker: while open, self-closes
and reports closed once `current_time - opened_at > timeout`, and otherwise
reports open; when closed, reports closed. -/
def checkCircuitBreaker (s : BreakerState) (now : ℚ) : Bool × BreakerState :=
  if s.breakerOpen = true then
    if circuitBreakerTimeout < now - s.openedAt then (false, { s with breakerOpen := false })
    else (true, s)
  else (false, s)

/-- mcp_manager.py MCPManager._open_circuit_breaker: opens the breaker and
stamps `opened_at = time.time()`. -/
def openCircuitBreaker (s : BreakerState) (now : ℚ) : BreakerState :=
  { s with breakerOpen := true, openedAt := now }

/-- Classified outcome of one upstream attempt inside
MCPManager.call_tool_with_retry: success, a 429/Too Many Requests error, a
timeout/connection error, or any other exception. -/
inductive Outcome (V : Type)
  | ok (v : V)
  | rateLimited
  | transient
  | permanent
deriving DecidableEq

/-- Instrumented result of call_tool_with_retry: the returned value, the final
breaker state, the number of upstream attempts actually issued, the final value
of the local `consecutive_429s` counter, and the list of backoff sleep
durations, in order. -/
structure LoopResult (V : Type) where
  result : Option V
  breaker : BreakerState
  invocations : Nat
  c429 : Nat
  sleeps : List ℚ
deriving DecidableEq

/-- Retry loop of mcp_manager.py MCPManager.call_tool_with_retry
(`for attempt in range(max_retries)`), with `outs i` the classified outcome of
attempt `i` and `times i` the wall clock at attempt `i`'s failure handling.
On success the breaker is reset; on a 429 the local counter increments and the
second consecutive 429 opens the breaker and aborts; otherwise the attempt
backs off (20·2^attempt for a 429, (attempt+1)·5 for timeout/connection, 3 for
other errors — the latter only when another attempt remains) and retries. -/
def retryLoopAux (s : BreakerState) (c : Nat) (attempt fuel maxRetries : Nat)
    (outs : Nat → Outcome V) (times : Nat → ℚ) : LoopResult V :=
  match fuel with
  | 0 => ⟨none, s, 0, c, []⟩
  | Nat.succ f =>
    match outs attempt with
    | .ok v => ⟨some v, { s with breakerOpen := false }, 1, c, []⟩
    | .rateLimited =>
      if 2 ≤ c + 1 then ⟨none, openCircuitBreaker s (times attempt), 1, c + 1, []⟩
      else
        let r := retryLoopAux s (c + 1) (attempt + 1) f maxRetries outs times
        ⟨r.result, r.breaker, r.invocations + 1, r.c429, (20 * 2 ^ attempt : ℚ) :: r.sleeps⟩
    | .transient =>
      let r := retryLoopAux s c (attempt + 1) f maxRetries outs times
      ⟨r.result, r.breaker, r.invocations + 1, r.c429, ((attempt + 1 : ℚ) * 5) :: r.sleeps⟩
    | .permanent =>
      if attempt + 1 < maxRetries then
        let r := retryLoopAux s c (attempt + 1) f maxRetries outs times
        ⟨r.result, r.breaker, r.invocations + 1, r.c429, (3 : ℚ) :: r.sleeps⟩
      else ⟨none, s, 1, c, []⟩

/-- mcp_manager.py MCPManager.call_tool_with_retry: checks the circuit breaker
first and aborts with no result, zero attempts and zero sleeps when it reports
open; otherwise runs the retry loop with `consecutive_429s = 0`. The function
catches every exception internally, which the model reflects by being total. -/
def callToolWithRetry (s : BreakerState) (now : ℚ) (maxRetries : Nat)
    (outs : Nat → Outcome V) (times : Nat → ℚ) : LoopResult V :=
  let ck := checkCircuitBreaker s now
  if ck.1 = true then ⟨none, ck.2, 0, 0, []⟩
  else retryLoopAux ck.2 0 0 maxRetries maxRetries outs times

/-- Backoff duration mcp_manager.py schedules after a failure of attempt
`attempt` (0-based) of the given kind. -/
def expectedBackoff (attempt : Nat) : Outcome V → ℚ
  | .rateLimited => 20 * 2 ^ attempt
  | .transient => (attempt + 1 : ℚ) * 5
  | .permanent => 3
  | .ok _ => 0

/-- Control point of one caller inside main.py debounced_request: before
acquiring the per-key lock; holding the lock at the `key in _active_requests`
test; awaiting its own freshly started task; awaiting a shared in-flight task;
finished (with its own result, or with a shared one). -/
inductive CallerPc
  | start
  | locked
  | fetching
  | waitShared
  | doneOwn
  | doneShared
deriving DecidableEq

/-- Global state of main.py debounced_request for one key and `n` concurrent
callers: the holder of `_request_locks[key]`, whether the key is in
`_active_requests`, whether the shared task future has resolved, each caller's
control point, and the number of upstream invocations started. -/
structure CoState (n : Nat) where
  lock : Option (Fin n)
  active : Bool
  sharedResolved : Bool
  pc : Fin n → CallerPc
  invocations : Nat

/-- Pointwise update of the caller control points. -/
def updFin {n : Nat} (f : Fin n → CallerPc) (i : Fin n) (v : CallerPc) : Fin n → CallerPc :=
  fun j => if j = i then v else f j

/-- One cooperative small step of caller `i` in debounced_request:
acquire the free lock; holding the lock, either join the registered in-flight
task or register and start a new one (one more upstream invocation); finish the
awaited own task, which deletes the registry entry in the `finally` block
before the lock is released; or resume from awaiting a shared task once it has
resolved. Returns none when `i` is blocked or already done. -/
def coStep {n : Nat} (s : CoState n) (i : Fin n) : Option (CoState n) :=
  match s.pc i with
  | .start =>
    if s.lock = none then some { s with lock := some i, pc := updFin s.pc i .locked }
    else none
  | .locked =>
    if s.lock = some i then
      if s.active = true then some { s with pc := updFin s.pc i .waitShared }
      else some { s with active := true, invocations := s.invocations + 1,
                         pc := updFin s.pc i .fetching }
    else none
  | .fetching =>
    if s.lock = some i then
      some { s with active := false, sharedResolved := true, lock := none,
                    pc := updFin s.pc i .doneOwn }
    else none
  | .waitShared =>
    if s.sharedResolved = true ∧ s.lock = some i then
      some { s with lock := none, pc := updFin s.pc i .doneShared }
    else none
  | .doneOwn => none
  | .doneShared => none

/-- Run a schedule of caller steps; fails if the schedule picks a blocked or
finished caller. -/
def coRun {n : Nat} (s : CoState n) : List (Fin n) → Option (CoState n)
  | [] => some s
  | i :: rest =>
    match coStep s i with
    | some s1 => coRun s1 rest
    | none => none

/-- Initial state: every caller has missed the fresh cache and is about to
enter debounced_request; the lock is free, no request is registered. -/
def coInit (n : Nat) : CoState n :=
  ⟨none, false, false, fun _ => .start, 0⟩

/-- Number of upstream invocations of a completed run. -/
def coRunInvocations {n : Nat} (s : CoState n) (sched : List (Fin n)) : Option Nat :=
  (coRun s sched).map CoState.invocations

/-- Whether every caller finished by running its own upstream fetch. -/
def coAllDoneOwn {n : Nat} (s : CoState n) : Bool :=
  decide (∀ i, s.pc i = CallerPc.doneOwn)

/-- State of mcp_manager.py's rate limiter: `_request_queue` (timestamps of
recorded calls, oldest first) and `_last_request_time`. -/
structure RLState where
  queue : List ℚ
  last : ℚ

/-- Pruning step of MCPManager._wait_for_rate_limit:
`[t for t in self._request_queue if now - t < 60]`. -/
def pruneQ (s : RLState) (a : ℚ) : List ℚ :=
  s.queue.filter (fun t => decide (a - t < 60))

/-- Wake-up instant after the window wait of _wait_for_rate_limit: if the
pruned queue holds at least `_max_requests_per_minute = 5` timestamps, sleep
`60 - (now - queue[0]) + 10` seconds (when positive); sleeps are exact. -/
def waitT1 (s : RLState) (a : ℚ) : ℚ :=
  if 5 ≤ (pruneQ s a).length then
    match (pruneQ s a).head? with
    | some h => if 0 < 60 - (a - h) + 10 then a + (60 - (a - h) + 10) else a
    | none => a
  else a

/-- Instant at which the call is recorded: after the window wait, sleep
`_request_delay - (now - _last_request_time)` more seconds when
`now - _last_request_time < _request_delay = 8`, `now` being the stale clock
read at function entry; then append `time.time()` and update
`_last_request_time`. -/
def recordT2 (s : RLState) (a : ℚ) : ℚ :=
  if a - s.last < 8 then waitT1 s a + (8 - (a - s.last)) else waitT1 s a

/-- One full call of MCPManager._wait_for_rate_limit entered at instant `a`:
prune, wait, record. -/
def rlStep (s : RLState) (a : ℚ) : RLState :=
  ⟨pruneQ s a ++ [recordT2 s a], recordT2 s a⟩

/-- Record times produced by a sequence of calls entered at the given
instants. -/
def rlRecords : RLState → List ℚ → List ℚ
  | _, [] => []
  | s, a :: as => recordT2 s a :: rlRecords (rlStep s a) as

/-- Admissible call sequence: `_wait_for_rate_limit` runs under
`_global_request_lock`, so each call is entered no earlier than the instant at
which the previous call was recorded (and the first no earlier than the initial
`_last_request_time`). -/
def admissibleB : RLState → List ℚ → Bool
  | _, [] => true
  | s, a :: as => if s.last ≤ a then admissibleB (rlStep s a) as else false

/-- Initial rate-limiter state: empty queue, `_last_request_time = 0`. -/
def rlInit : RLState := ⟨[], 0⟩

/-! Helper lemmas about the cache model. -/

lemma set_mem_self (s : CacheState K V) (k : K) (v : V) (ttl now : ℚ) (okc : Bool) :
    (CacheManager.set s k v ttl now okc).mem k = some ⟨v, now, ttl⟩ := by
  unfold CacheManager.set ChromaPersistentCache.set
  dsimp only
  split_ifs <;> simp [updMap]

lemma set_chromaAvailable (s : CacheState K V) (k : K) (v : V) (ttl now : ℚ) (okc : Bool) :
    (CacheManager.set s k v ttl now okc).chromaAvailable = s.chromaAvailable := by
  unfold CacheManager.set ChromaPersistentCache.set
  dsimp only
  split_ifs <;> simp

lemma set_chroma (s : CacheState K V) (k : K) (v : V) (ttl now : ℚ) (okc : Bool) :
    (CacheManager.set s k v ttl now okc).chroma =
      (if s.chromaAvailable = true ∧ 60 < ttl ∧ okc = true then
        updMap s.chroma k (some ⟨v, now⟩) else s.chroma) := by
  unfold CacheManager.set ChromaPersistentCache.set
  dsimp only
  by_cases hA : s.chromaAvailable = true
  · by_cases hT : (60 : ℚ) < ttl
    · by_cases hO : okc = true
      · simp [hA, hT, hO]
      · simp [hA, hT, hO]
    · simp [hA, hT]
  · simp [hA]

lemma getFallback_persistentRead (s : CacheState K V) (k : K) (now : ℚ) (okc : Bool) :
    (CacheManager.getFallback s k now okc).persistentRead = s.chromaAvailable := by
  unfold CacheManager.getFallback
  by_cases hA : s.chromaAvailable = true
  · cases hcg : ChromaPersistentCache.get s k 1 now <;> simp [hA, hcg]
  · rw [Bool.not_eq_true] at hA
    simp [hA]

lemma getFallback_value (s : CacheState K V) (k : K) (now : ℚ) (okc : Bool) :
    (CacheManager.getFallback s k now okc).value = ChromaPersistentCache.get s k 1 now := by
  unfold CacheManager.getFallback
  by_cases hA : s.chromaAvailable = true
  · cases hcg : ChromaPersistentCache.get s k 1 now <;> simp [hA, hcg]
  · rw [Bool.not_eq_true] at hA
    simp [hA, ChromaPersistentCache.get]

lemma getFallback_mem_isSome (s : CacheState K V) (k : K) (now : ℚ) (okc : Bool)
    (h : (s.mem k).isSome = true) :
    ((CacheManager.getFallback s k now okc).state.mem k).isSome = true := by
  unfold CacheManager.getFallback
  by_cases hA : s.chromaAvailable = true
  · cases hcg : ChromaPersistentCache.get s k 1 now with
    | none => simpa [hA, hcg] using h
    | some v => simp [hA, hcg, set_mem_self]
  · rw [Bool.not_eq_true] at hA
    simpa [hA] using h

lemma get_of_miss (s : CacheState K V) (k : K) (now : ℚ) (okc : Bool)
    (hm : s.mem k = none) (hc : s.chroma k = none) :
    CacheManager.get s k now okc = ⟨none, s, s.chromaAvailable⟩ := by
  unfold CacheManager.get CacheManager.getFallback ChromaPersistentCache.get
  rw [hm]
  cases hA : s.chromaAvailable <;> simp [hA, hc]

lemma getStale_of_miss (s : CacheState K V) (k : K) (now : ℚ)
    (hm : s.mem k = none) (hc : s.chroma k = none) :
    CacheManager.getStale s k now = (none, s) := by
  unfold CacheManager.getStale ChromaPersistentCache.getStale
  rw [hm]
  cases hA : s.chromaAvailable <;> simp [hA, hc]

/-- Concrete cache state with both tiers empty. -/
def emptyCacheN : CacheState ℕ ℕ := ⟨fun _ => none, true, fun _ => none⟩

/-- Concrete cache state with only a hot-tier entry: value 7 stored at instant
0 with ttl 600. -/
def memOnlyState : CacheState ℕ ℕ :=
  ⟨updMap (fun _ => none) 0 (some ⟨7, 0, 600⟩), true, fun _ => none⟩

/-- Concrete cache state with only a persistent-tier entry: value 7 stored at
instant 0. -/
def chromaOnlyState : CacheState ℕ ℕ :=
  ⟨fun _ => none, true, updMap (fun _ => none) 0 (some ⟨7, 0⟩)⟩

/-- Concrete cache state obtained by storing value 7 under key 0 at instant 0
with ttl 600 into an empty cache: both tiers now hold the entry. -/
def c2state : CacheState ℕ ℕ := CacheManager.set emptyCacheN 0 7 600 0 true

/-- C2, counterexample: the claim states that `CacheManager.get` never returns
an entry whose age is at least the ttlSeconds it was stored with and that an
expired hot-tier entry yields nothing. Store value 7 at instant 0 with
ttl 600; at instant 1800 the hot entry is expired, yet `get` returns 7 through
the ChromaDB fallback read (the persistent copy is younger than 1 hour), even
though 1800 - 0 ≥ 600. -/
theorem C2_claim_false :
    c2state.mem 0 = some ⟨7, 0, 600⟩
    ∧ (CacheManager.get c2state 0 1800 true).value = some 7
    ∧ ¬ ((1800 : ℚ) - 0 < 600) := by
  refine ⟨?_, ?_, by norm_num⟩
  · norm_num [c2state, CacheManager.set, ChromaPersistentCache.set, emptyCacheN, updMap]
  · norm_num [CacheManager.get, CacheManager.getFallback, ChromaPersistentCache.get, c2state,
      CacheManager.set, ChromaPersistentCache.set, emptyCacheN, updMap]

/-- C2, amended: `CacheManager.get` returns the hot-tier entry exactly when
`now - storedAt < ttlSeconds`, and an expired hot-tier entry is not deleted
(it remains available to `get_stale`); however, instead of returning nothing,
`get` then falls back to the persistent tier, returning any persistent entry
younger than 1 hour regardless of the original ttl (promoting it into the hot
tier), and only a fresh hot-tier entry can be returned without reading the
persistent store. -/
theorem C2_amended_get :
    (∀ (s : CacheState K V) (k : K) (now : ℚ) (okc : Bool) (e : MemEntry V),
      s.mem k = some e → now - e.timestamp < e.ttl →
      CacheManager.get s k now okc = ⟨some e.data, s, false⟩)
    ∧ (∀ (s : CacheState K V) (k : K) (now : ℚ) (okc : Bool) (e : MemEntry V),
      s.mem k = some e → e.ttl ≤ now - e.timestamp →
      ((CacheManager.get s k now okc).state.mem k).isSome = true
      ∧ (CacheManager.get s k now okc).persistentRead = s.chromaAvailable
      ∧ (CacheManager.get s k now okc).value = ChromaPersistentCache.get s k 1 now)
    ∧ (∀ (s : CacheState K V) (k : K) (now : ℚ) (okc : Bool) (v : V),
      (CacheManager.get s k now okc).persistentRead = false →
      (CacheManager.get s k now okc).value = some v →
      ∃ e, s.mem k = some e ∧ now - e.timestamp < e.ttl ∧ e.data = v) := by
  refine ⟨?_, ?_, ?_⟩
  · intro s k now okc e hm hf
    unfold CacheManager.get
    rw [hm]
    dsimp only
    rw [if_pos hf]
  · intro s k now okc e hm hexp
    unfold CacheManager.get
    rw [hm]
    dsimp only
    rw [if_neg (not_lt.2 hexp)]
    exact ⟨getFallback_mem_isSome s k now okc (by simp [hm]),
      getFallback_persistentRead s k now okc, getFallback_value s k now okc⟩
  · intro s k now okc v hpr hval
    unfold CacheManager.get at hpr hval
    cases hm : s.mem k with
    | some e =>
      rw [hm] at hpr hval
      dsimp only at hpr hval
      by_cases hf : now - e.timestamp < e.ttl
      · rw [if_pos hf] at hval
        exact ⟨e, rfl, hf, by simpa using hval⟩
      · rw [if_neg hf] at hpr hval
        rw [getFallback_persistentRead] at hpr
        rw [getFallback_value] at hval
        unfold ChromaPersistentCache.get at hval
        rw [hpr] at hval
        simp at hval
    | none =>
      rw [hm] at hpr hval
      dsimp only at hpr hval
      rw [getFallback_persistentRead] at hpr
      rw [getFallback_value] at hval
      unfold ChromaPersistentCache.get at hval
      rw [hpr] at hval
      simp at hval

/-- C2, witness: a fresh hot-tier entry (value 7, stored at 0, ttl 600, read at
100) is returned as a memory hit without touching the persistent store. -/
theorem C2_amended_get_witness :
    CacheManager.get memOnlyState 0 100 true = ⟨some 7, memOnlyState, false⟩ :=
  C2_amended_get.1 memOnlyState 0 100 true ⟨7, 0, 600⟩ (by norm_num [memOnlyState, updMap])
    (by norm_num)

/-- C3, counterexample: the claim states that the stale lookup
(`CacheManager.get_stale`) never returns an entry older than the staleness
bound (1 day, as `CacheManager.get_stale` passes `max_stale_days=1`) and
deletes older entries. Store value 7 at instant 0; at instant 864000
(10 days) `get_stale` still returns the in-memory entry and deletes
nothing. -/
theorem C3_claim_false :
    (CacheManager.getStale memOnlyState 0 864000).1 = some 7
    ∧ (CacheManager.getStale memOnlyState 0 864000).2.mem 0 = some ⟨7, 0, 600⟩
    ∧ ¬ ((864000 : ℚ) - 0 < 1 * 86400) := by
  refine ⟨?_, ?_, by norm_num⟩
  · norm_num [CacheManager.getStale, memOnlyState, updMap]
  · norm_num [CacheManager.getStale, memOnlyState, updMap]

/-- C3, amended: `ChromaPersistentCache.get_stale` indeed never returns an
entry aged `maxStaleDays` days or more and deletes any such entry, returning
nothing; `CacheManager.get_stale`, however, returns an in-memory entry
unconditionally, with no staleness bound and no deletion, and applies the
1-day bound only on the persistent-tier fallback taken when the hot tier has
no entry at all. -/
theorem C3_amended_getStale :
    (∀ (s : CacheState K V) (k : K) (d now : ℚ) (w : V),
      (ChromaPersistentCache.getStale s k d now).1 = some w →
      ∃ e, s.chroma k = some e ∧ now - e.timestamp < d * 86400 ∧ e.data = w)
    ∧ (∀ (s : CacheState K V) (k : K) (d now : ℚ) (e : ChromaEntry V),
      s.chromaAvailable = true → s.chroma k = some e → d * 86400 ≤ now - e.timestamp →
      ChromaPersistentCache.getStale s k d now =
        (none, { s with chroma := updMap s.chroma k none }))
    ∧ (∀ (s : CacheState K V) (k : K) (now : ℚ) (e : MemEntry V),
      s.mem k = some e → CacheManager.getStale s k now = (some e.data, s))
    ∧ (∀ (s : CacheState K V) (k : K) (now : ℚ),
      s.mem k = none →
      CacheManager.getStale s k now = ChromaPersistentCache.getStale s k 1 now) := by
  refine ⟨?_, ?_, ?_, ?_⟩
  · intro s k d now w hval
    unfold ChromaPersistentCache.getStale at hval
    by_cases hA : s.chromaAvailable = true
    · rw [if_pos hA] at hval
      cases hc : s.chroma k with
      | some e =>
        rw [hc] at hval
        dsimp only at hval
        by_cases hage : now - e.timestamp < d * 86400
        · rw [if_pos hage] at hval
          exact ⟨e, rfl, hage, by simpa using hval⟩
        · rw [if_neg hage] at hval
          simp at hval
      | none =>
        rw [hc] at hval
        dsimp only at hval
        exact Option.noConfusion hval
    · rw [if_neg hA] at hval
      simp at hval
  · intro s k d now e hA hc hage
    unfold ChromaPersistentCache.getStale
    rw [if_pos hA, hc]
    dsimp only
    rw [if_neg (not_lt.2 hage)]
  · intro s k now e hm
    unfold CacheManager.getStale
    rw [hm]
  · intro s k now hm
    unfold CacheManager.getStale ChromaPersistentCache.getStale
    rw [hm]
    by_cases hA : s.chromaAvailable = true
    · rw [if_pos hA, if_pos hA]
    · rw [if_neg hA, if_neg hA]

/-- C3, witness: a persistent entry stored at instant 0 and looked up stale at
instant 100000 (older than the 1-day bound) is deleted and nothing is
returned. -/
theorem C3_amended_getStale_witness :
    ChromaPersistentCache.getStale chromaOnlyState 0 1 100000 =
      (none, { chromaOnlyState with chroma := updMap chromaOnlyState.chroma 0 none }) :=
  C3_amended_getStale.2.1 chromaOnlyState 0 1 100000 ⟨7, 0⟩ rfl
    (by norm_num [chromaOnlyState, updMap]) (by norm_num)

/-- C8, counterexample: the claim states that a fresh lookup
(`CacheManager.get`) never reads from the persistent store. With an empty hot
tier and a persistent entry (value 7 stored at instant 0), `get` at instant
100 reads the persistent store and returns its data. -/
theorem C8_claim_false :
    chromaOnlyState.mem 0 = none
    ∧ (CacheManager.get chromaOnlyState 0 100 true).persistentRead = true
    ∧ (CacheManager.get chromaOnlyState 0 100 true).value = some 7 := by
  refine ⟨rfl, ?_, ?_⟩ <;>
    norm_num [CacheManager.get, CacheManager.getFallback, ChromaPersistentCache.get,
      chromaOnlyState, updMap]

/-- C8, amended: `CacheManager.get` reads the persistent store exactly when
the store is available and the hot tier holds no fresh entry; a persistent
entry younger than 1 hour is then returned and promoted into the hot tier
with a 300-second ttl. The persistent store is additionally consulted by
`get_stale` as the last-resort fallback after the fetch pipeline fails. -/
theorem C8_amended_persistent_read :
    (∀ (s : CacheState K V) (k : K) (now : ℚ) (okc : Bool),
      (CacheManager.get s k now okc).persistentRead
        = (s.chromaAvailable && ! memFresh s k now))
    ∧ (∀ (s : CacheState K V) (k : K) (now : ℚ) (okc : Bool) (v : V),
      memFresh s k now = false → ChromaPersistentCache.get s k 1 now = some v →
      (CacheManager.get s k now okc).value = some v
      ∧ (CacheManager.get s k now okc).state.mem k = some ⟨v, now, 300⟩) := by
  constructor
  · intro s k now okc
    unfold CacheManager.get memFresh
    cases hm : s.mem k with
    | some e =>
      by_cases hf : now - e.timestamp < e.ttl
      · simp [hf]
      · dsimp only
        rw [if_neg hf, getFallback_persistentRead]
        simp [hf]
    | none =>
      rw [getFallback_persistentRead]
      simp
  · intro s k now okc v hmf hcg
    have hA : s.chromaAvailable = true := by
      by_contra hA
      unfold ChromaPersistentCache.get at hcg
      rw [if_neg hA] at hcg
      exact Option.noConfusion hcg
    have hfb : CacheManager.getFallback s k now okc
        = ⟨some v, CacheManager.set s k v 300 now okc, true⟩ := by
      unfold CacheManager.getFallback
      rw [if_pos hA, hcg]
    unfold CacheManager.get
    unfold memFresh at hmf
    cases hm : s.mem k with
    | some e =>
      rw [hm] at hmf
      dsimp only at hmf
      simp only [decide_eq_false_iff_not] at hmf
      dsimp only
      rw [if_neg hmf, hfb]
      exact ⟨rfl, set_mem_self s k v 300 now okc⟩
    | none =>
      dsimp only
      rw [hfb]
      exact ⟨rfl, set_mem_self s k v 300 now okc⟩

/-- C8, witness: with an empty hot tier and a persistent entry of value 7
stored at instant 0, `get` at instant 100 returns 7 and promotes it into the
hot tier with ttl 300. -/
theorem C8_amended_persistent_read_witness :
    (CacheManager.get chromaOnlyState 0 100 true).value = some 7
    ∧ (CacheManager.get chromaOnlyState 0 100 true).state.mem 0 = some ⟨7, 100, 300⟩ :=
  C8_amended_persistent_read.2 chromaOnlyState 0 100 true 7
    (by norm_num [memFresh, chromaOnlyState, updMap])
    (by norm_num [ChromaPersistentCache.get, chromaOnlyState, updMap])

/-- C9, confirmed: `CacheManager.set` always writes the hot tier (the entry
for the key becomes the new value with the given timestamp and ttl); the
persistent tier is written exactly when the store is available, `ttl > 60`,
and the upsert does not fail — in particular a persistent-tier write failure
(`okc = false`) leaves the persistent tier unchanged while the hot-tier write
and the normal return of `set` are unaffected (the model is a total
function). -/
theorem C9_set_tiers :
    ∀ (s : CacheState K V) (k : K) (v : V) (ttl now : ℚ) (okc : Bool),
      (CacheManager.set s k v ttl now okc).mem = updMap s.mem k (some ⟨v, now, ttl⟩)
      ∧ (CacheManager.set s k v ttl now okc).chromaAvailable = s.chromaAvailable
      ∧ (CacheManager.set s k v ttl now okc).chroma =
          (if s.chromaAvailable = true ∧ 60 < ttl ∧ okc = true then
            updMap s.chroma k (some ⟨v, now⟩) else s.chroma) := by
  intro s k v ttl now okc
  refine ⟨?_, set_chromaAvailable s k v ttl now okc, set_chroma s k v ttl now okc⟩
  unfold CacheManager.set ChromaPersistentCache.set
  dsimp only
  split_ifs <;> rfl

/-- C10, confirmed: when the upstream fetch returns no data and no stale entry
exists in either tier, the endpoint returns the typed empty response and
caches it for 60 seconds; within the next 60 seconds every request for the
same key is a hot-tier hit returning the empty response with zero upstream
invocations; when the fetch instead ends in a raised exception (and no stale
entry exists), the empty response is returned and nothing is cached (the
state is unchanged). -/
theorem C10_negative_caching :
    (∀ (s : CacheState K V) (k : K) (now : ℚ) (e : V) (okc : Bool),
      s.mem k = none → s.chroma k = none →
      endpoint s k now .noData e okc =
        ⟨e, { s with mem := updMap s.mem k (some ⟨e, now, 60⟩) }, 1⟩)
    ∧ (∀ (s : CacheState K V) (k : K) (stored nowq : ℚ) (e : V) (okc : Bool)
        (up : Upstream V),
      s.mem k = some ⟨e, stored, 60⟩ → nowq - stored < 60 →
      endpoint s k nowq up e okc = ⟨e, s, 0⟩)
    ∧ (∀ (s : CacheState K V) (k : K) (now : ℚ) (e : V) (okc : Bool),
      s.mem k = none → s.chroma k = none →
      endpoint s k now .raised e okc = ⟨e, s, 1⟩) := by
  refine ⟨?_, ?_, ?_⟩
  · intro s k now e okc hm hc
    unfold endpoint
    rw [get_of_miss s k now okc hm hc]
    dsimp only
    unfold fetchData
    rw [getStale_of_miss s k now hm hc]
    dsimp only
    unfold CacheManager.set ChromaPersistentCache.set
    dsimp only
    have h60 : ¬ (s.chromaAvailable = true ∧ (60 : ℚ) < 60) := by
      rintro ⟨-, h⟩
      exact absurd h (lt_irrefl 60)
    rw [if_neg h60]
  · intro s k stored nowq e okc up hm hf
    unfold endpoint CacheManager.get
    rw [hm]
    dsimp only
    rw [if_pos hf]
  · intro s k now e okc hm hc
    unfold endpoint
    rw [get_of_miss s k now okc hm hc]
    dsimp only
    unfold fetchData
    rw [getStale_of_miss s k now hm hc]

/-- C10, witness: starting from an empty cache, a no-data fetch at instant
1000 returns the empty response 5 and caches it with ttl 60; a second request
at instant 1030 is a pure cache hit with zero upstream invocations; a raising
fetch from the empty cache returns 5 and leaves the cache empty. -/
theorem C10_negative_caching_witness :
    endpoint emptyCacheN 0 1000 .noData 5 true =
      ⟨5, { emptyCacheN with mem := updMap emptyCacheN.mem 0 (some ⟨5, 1000, 60⟩) }, 1⟩
    ∧ endpoint { emptyCacheN with mem := updMap emptyCacheN.mem 0 (some ⟨5, 1000, 60⟩) }
        0 1030 .noData 5 true =
      ⟨5, { emptyCacheN with mem := updMap emptyCacheN.mem 0 (some ⟨5, 1000, 60⟩) }, 0⟩
    ∧ endpoint emptyCacheN 0 1000 .raised 5 true = ⟨5, emptyCacheN, 1⟩ :=
  ⟨C10_negative_caching.1 emptyCacheN 0 1000 5 true rfl rfl,
   C10_negative_caching.2.1 _ 0 1000 1030 5 true .noData (by norm_num [emptyCacheN, updMap])
     (by norm_num),
   C10_negative_caching.2.2 emptyCacheN 0 1000 5 true rfl rfl⟩

/-! Helper lemmas about the retry loop. -/

lemma retryLoopAux_result_none (outs : Nat → Outcome V) (times : Nat → ℚ)
    (h : ∀ i v, outs i ≠ .ok v) :
    ∀ (fuel : Nat) (s : BreakerState) (c attempt maxRetries : Nat),
      (retryLoopAux s c attempt fuel maxRetries outs times).result = none := by
  intro fuel
  induction fuel with
  | zero => intro s c a m; rfl
  | succ f ih =>
    intro s c a m
    unfold retryLoopAux
    cases ho : outs a with
    | ok v => exact absurd ho (h a v)
    | rateLimited =>
      by_cases hc : 2 ≤ c + 1
      · rw [if_pos hc]
      · rw [if_neg hc]
        dsimp only
        exact ih s (c + 1) (a + 1) m
    | transient =>
      dsimp only
      exact ih s c (a + 1) m
    | permanent =>
      by_cases hl : a + 1 < m
      · rw [if_pos hl]
        dsimp only
        exact ih s c (a + 1) m
      · rw [if_neg hl]

lemma retryLoopAux_c429_no429 (outs : Nat → Outcome V) (times : Nat → ℚ)
    (h : ∀ i, outs i ≠ .rateLimited) :
    ∀ (fuel : Nat) (s : BreakerState) (c attempt maxRetries : Nat),
      (retryLoopAux s c attempt fuel maxRetries outs times).c429 = c := by
  intro fuel
  induction fuel with
  | zero => intro s c a m; rfl
  | succ f ih =>
    intro s c a m
    unfold retryLoopAux
    cases ho : outs a with
    | ok v => rfl
    | rateLimited => exact absurd ho (h a)
    | transient =>
      dsimp only
      exact ih s c (a + 1) m
    | permanent =>
      by_cases hl : a + 1 < m
      · rw [if_pos hl]
        dsimp only
        exact ih s c (a + 1) m
      · rw [if_neg hl]

lemma retryLoopAux_breaker_unchanged (outs : Nat → Outcome V) (times : Nat → ℚ)
    (h : ∀ i, outs i ≠ .rateLimited ∧ ∀ v, outs i ≠ .ok v) :
    ∀ (fuel : Nat) (s : BreakerState) (c attempt maxRetries : Nat),
      (retryLoopAux s c attempt fuel maxRetries outs times).breaker = s := by
  intro fuel
  induction fuel with
  | zero => intro s c a m; rfl
  | succ f ih =>
    intro s c a m
    unfold retryLoopAux
    cases ho : outs a with
    | ok v => exact absurd ho ((h a).2 v)
    | rateLimited => exact absurd ho (h a).1
    | transient =>
      dsimp only
      exact ih s c (a + 1) m
    | permanent =>
      by_cases hl : a + 1 < m
      · rw [if_pos hl]
        dsimp only
        exact ih s c (a + 1) m
      · rw [if_neg hl]

lemma retryLoopAux_sleeps_get (outs : Nat → Outcome V) (times : Nat → ℚ) :
    ∀ (fuel : Nat) (s : BreakerState) (c attempt maxRetries : Nat) (j : Nat) (d : ℚ),
      (retryLoopAux s c attempt fuel maxRetries outs times).sleeps.get? j = some d →
      d = expectedBackoff (attempt + j) (outs (attempt + j)) := by
  intro fuel
  induction fuel with
  | zero =>
    intro s c a m j d hd
    exact Option.noConfusion hd
  | succ f ih =>
    intro s c a m j d hd
    unfold retryLoopAux at hd
    cases ho : outs a with
    | ok v =>
      rw [ho] at hd
      exact Option.noConfusion hd
    | rateLimited =>
      rw [ho] at hd
      by_cases hc : 2 ≤ c + 1
      · rw [if_pos hc] at hd
        exact Option.noConfusion hd
      · rw [if_neg hc] at hd
        dsimp only at hd
        cases j with
        | zero =>
          rw [Nat.add_zero, ho]
          simpa [expectedBackoff] using hd.symm
        | succ j =>
          have harr : a + 1 + j = a + (j + 1) := by omega
          rw [← harr]
          exact ih s (c + 1) (a + 1) m j d hd
    | transient =>
      rw [ho] at hd
      dsimp only at hd
      cases j with
      | zero =>
        rw [Nat.add_zero, ho]
        simpa [expectedBackoff] using hd.symm
      | succ j =>
        have harr : a + 1 + j = a + (j + 1) := by omega
        rw [← harr]
        exact ih s c (a + 1) m j d hd
    | permanent =>
      rw [ho] at hd
      by_cases hl : a + 1 < m
      · rw [if_pos hl] at hd
        dsimp only at hd
        cases j with
        | zero =>
          rw [Nat.add_zero, ho]
          simpa [expectedBackoff] using hd.symm
        | succ j =>
          have harr : a + 1 + j = a + (j + 1) := by omega
          rw [← harr]
          exact ih s c (a + 1) m j d hd
      · rw [if_neg hl] at hd
        exact Option.noConfusion hd

lemma retryLoopAux_invocations_le (outs : Nat → Outcome V) (times : Nat → ℚ) :
    ∀ (fuel : Nat) (s : BreakerState) (c attempt maxRetries : Nat),
      (retryLoopAux s c attempt fuel maxRetries outs times).invocations
        ≤ (retryLoopAux s c attempt fuel maxRetries outs times).sleeps.length + 1 := by
  intro fuel
  induction fuel with
  | zero => intro s c a m; simp [retryLoopAux]
  | succ f ih =>
    intro s c a m
    unfold retryLoopAux
    cases ho : outs a with
    | ok v => simp
    | rateLimited =>
      by_cases hc : 2 ≤ c + 1
      · rw [if_pos hc]
        simp
      · rw [if_neg hc]
        dsimp only
        have := ih s (c + 1) (a + 1) m
        simp only [List.length_cons]
        omega
    | transient =>
      dsimp only
      have := ih s c (a + 1) m
      simp only [List.length_cons]
      omega
    | permanent =>
      by_cases hl : a + 1 < m
      · rw [if_pos hl]
        dsimp only
        have := ih s c (a + 1) m
        simp only [List.length_cons]
        omega
      · rw [if_neg hl]
        simp

/-- C4, confirmed: inside call_tool_with_retry only the 429 branch touches the
local `consecutive_429s` counter, so runs without a RateLimited failure leave
it unchanged; when the second consecutive 429 arrives the breaker opens
immediately with `openedAt` stamped with the clock of that failure and the
call aborts; from the opening instant `_check_circuit_breaker` keeps
reporting open (and leaves the state open) while less than
`circuitBreakerTimeout = 300` seconds have elapsed, and the first check
strictly past the cooldown self-closes the breaker and reports closed. -/
theorem C4_circuit_breaker :
    (∀ (outs : Nat → Outcome V) (times : Nat → ℚ), (∀ i, outs i ≠ .rateLimited) →
      ∀ (fuel : Nat) (s : BreakerState) (c attempt maxRetries : Nat),
      (retryLoopAux s c attempt fuel maxRetries outs times).c429 = c)
    ∧ (∀ (outs : Nat → Outcome V) (times : Nat → ℚ) (s0 : BreakerState) (now : ℚ)
        (mr : Nat), outs 0 = .rateLimited → outs 1 = .rateLimited →
        (checkCircuitBreaker s0 now).1 = false → 2 ≤ mr →
        callToolWithRetry s0 now mr outs times =
          ⟨none, openCircuitBreaker (checkCircuitBreaker s0 now).2 (times 1), 2, 2, [20]⟩)
    ∧ (∀ (s : BreakerState) (t0 t : ℚ),
        (t - t0 < circuitBreakerTimeout →
          checkCircuitBreaker (openCircuitBreaker s t0) t = (true, openCircuitBreaker s t0))
        ∧ (circuitBreakerTimeout < t - t0 →
          checkCircuitBreaker (openCircuitBreaker s t0) t
            = (false, { openCircuitBreaker s t0 with breakerOpen := false }))) := by
  refine ⟨?_, ?_, ?_⟩
  · intro outs times h
    exact retryLoopAux_c429_no429 outs times h
  · intro outs times s0 now mr h0 h1 hck hmr
    obtain ⟨m, rfl⟩ : ∃ m, mr = m + 2 := ⟨mr - 2, by omega⟩
    unfold callToolWithRetry
    dsimp only
    rw [hck]
    norm_num [retryLoopAux, h0, h1]
  · intro s t0 t
    constructor
    · intro ht
      unfold checkCircuitBreaker openCircuitBreaker
      dsimp only
      rw [if_pos rfl, if_neg (by simpa using not_lt.2 (le_of_lt ht))]
    · intro ht
      unfold checkCircuitBreaker openCircuitBreaker
      dsimp only
      rw [if_pos rfl, if_pos (by simpa using ht)]

/-- C4, witness: a run of the loop with only transient failures keeps the
counter at 0; with 429s on attempts 0 and 1, a call starting from the closed
breaker at instant 0 yields no result, two attempts, one 20-second sleep and
a breaker opened at the clock of the second failure (5); the breaker opened
at 0 still reports open at instant 100. -/
theorem C4_circuit_breaker_witness :
    (retryLoopAux (V := ℕ) ⟨false, 0⟩ 0 0 3 3 (fun _ => .transient) (fun _ => 0)).c429 = 0
    ∧ callToolWithRetry (V := ℕ) ⟨false, 0⟩ 0 3 (fun _ => .rateLimited) (fun _ => 5) =
        ⟨none, openCircuitBreaker (checkCircuitBreaker (⟨false, 0⟩ : BreakerState) 0).2 5,
          2, 2, [20]⟩
    ∧ checkCircuitBreaker (openCircuitBreaker ⟨false, 0⟩ 0) 100 =
        (true, openCircuitBreaker ⟨false, 0⟩ 0) :=
  ⟨(C4_circuit_breaker (V := ℕ)).1 (fun _ => .transient) (fun _ => 0) (fun _ h => nomatch h)
      3 ⟨false, 0⟩ 0 0 3,
   (C4_circuit_breaker (V := ℕ)).2.1 (fun _ => .rateLimited) (fun _ => 5) ⟨false, 0⟩ 0 3
      rfl rfl rfl (by norm_num),
   ((C4_circuit_breaker (V := ℕ)).2.2 ⟨false, 0⟩ 0 100).1
      (by norm_num [circuitBreakerTimeout])⟩

/-- C6, confirmed: call_tool_with_retry is a total function of the attempt
outcomes (every exception raised inside the try-block is caught), so it never
raises to its caller; when `_check_circuit_breaker` reports open at the start
of the call it returns None immediately with zero upstream attempts and zero
backoff sleeps; and whenever no attempt succeeds — in particular after all
`maxRetries` attempts fail — the call returns None. -/
theorem C6_retry_no_raise :
    (∀ (outs : Nat → Outcome V) (times : Nat → ℚ) (s : BreakerState) (now : ℚ)
        (mr : Nat) (s1 : BreakerState), checkCircuitBreaker s now = (true, s1) →
      callToolWithRetry s now mr outs times = ⟨none, s1, 0, 0, []⟩)
    ∧ (∀ (outs : Nat → Outcome V) (times : Nat → ℚ) (s : BreakerState) (now : ℚ)
        (mr : Nat), (∀ i v, outs i ≠ .ok v) →
      (callToolWithRetry s now mr outs times).result = none) := by
  constructor
  · intro outs times s now mr s1 hck
    unfold callToolWithRetry
    rw [hck]
    norm_num
  · intro outs times s now mr h
    unfold callToolWithRetry
    dsimp only
    by_cases hck : (checkCircuitBreaker s now).1 = true
    · rw [if_pos hck]
    · rw [if_neg hck]
      exact retryLoopAux_result_none outs times h mr (checkCircuitBreaker s now).2 0 0 mr

/-- C6, witness: with the breaker opened at instant 0 and checked at instant
100, a call returns None with zero attempts; a call from the closed breaker in
which every attempt fails permanently returns None. -/
theorem C6_retry_no_raise_witness :
    callToolWithRetry (V := ℕ) ⟨true, 0⟩ 100 3 (fun _ => .permanent) (fun _ => 0) =
      ⟨none, ⟨true, 0⟩, 0, 0, []⟩
    ∧ (callToolWithRetry (V := ℕ) ⟨false, 0⟩ 0 3 (fun _ => .permanent)
        (fun _ => 0)).result = none :=
  ⟨C6_retry_no_raise.1 (fun _ => .permanent) (fun _ => 0) ⟨true, 0⟩ 100 3 ⟨true, 0⟩
      (by norm_num [checkCircuitBreaker, circuitBreakerTimeout]),
   C6_retry_no_raise.2 (fun _ => .permanent) (fun _ => 0) ⟨false, 0⟩ 0 3
      (fun _ v h => nomatch h)⟩

/-- C7, confirmed: every backoff sleep the retry loop performs after the
failure of attempt `attempt + j` has exactly the source's duration —
20·2^attempt seconds for a RateLimited (429) failure that does not open the
breaker, (attempt+1)·5 seconds for a transient (timeout/connection) failure,
and 3 seconds for any other failure; the number of attempts exceeds the
number of sleeps by at most one, so every failed attempt that is followed by
a retry contributed its sleep; and runs without 429s and without successes
leave the breaker state untouched. -/
theorem C7_backoff_schedule :
    (∀ (outs : Nat → Outcome V) (times : Nat → ℚ) (fuel : Nat) (s : BreakerState)
        (c attempt maxRetries j : Nat) (d : ℚ),
      (retryLoopAux s c attempt fuel maxRetries outs times).sleeps.get? j = some d →
      d = expectedBackoff (attempt + j) (outs (attempt + j)))
    ∧ (∀ (outs : Nat → Outcome V) (times : Nat → ℚ) (fuel : Nat) (s : BreakerState)
        (c attempt maxRetries : Nat),
      (retryLoopAux s c attempt fuel maxRetries outs times).invocations
        ≤ (retryLoopAux s c attempt fuel maxRetries outs times).sleeps.length + 1)
    ∧ (∀ (outs : Nat → Outcome V) (times : Nat → ℚ),
        (∀ i, outs i ≠ .rateLimited ∧ ∀ v, outs i ≠ .ok v) →
      ∀ (fuel : Nat) (s : BreakerState) (c attempt maxRetries : Nat),
      (retryLoopAux s c attempt fuel maxRetries outs times).breaker = s) :=
  ⟨fun outs times => retryLoopAux_sleeps_get outs times,
   fun outs times => retryLoopAux_invocations_le outs times,
   fun outs times h => retryLoopAux_breaker_unchanged outs times h⟩

/-- C7, witness: in a run with only transient failures the first recorded
sleep is 5 = (0+1)·5 seconds, and a run with only permanent failures leaves
the breaker unchanged. -/
theorem C7_backoff_schedule_witness :
    (5 : ℚ) = expectedBackoff (0 + 0) ((fun _ => Outcome.transient (V := ℕ)) (0 + 0))
    ∧ (retryLoopAux (V := ℕ) ⟨false, 0⟩ 0 0 3 3 (fun _ => .permanent)
        (fun _ => 0)).breaker = ⟨false, 0⟩ :=
  ⟨C7_backoff_schedule.1 (fun _ => .transient) (fun _ => 0) 3 ⟨false, 0⟩ 0 0 3 0 5
      (by norm_num [retryLoopAux]),
   C7_backoff_schedule.2.2 (fun _ => .permanent) (fun _ => 0)
      (fun _ => ⟨fun h => Outcome.noConfusion h, fun _ h => Outcome.noConfusion h⟩)
      3 ⟨false, 0⟩ 0 0 3⟩

/-- C1: the claim states that N concurrent callers entering debounced_request
for the same key issue exactly one upstream invocation and all receive the
identical result. In the code the launcher holds the per-key lock across its
`await task` and deletes the `_active_requests` entry in the `finally` block
before the lock is released, so a second caller can only reach the
`key in _active_requests` test after the entry is gone: with two concurrent
callers (caller 0 acquires first, caller 1 blocks on the lock, caller 0
finishes and releases, caller 1 proceeds), the run completes with both
callers having run their own fetch and 2 upstream invocations instead of 1. -/
theorem C1_two_callers_two_upstream_calls :
    coRunInvocations (coInit 2) [0, 0, 0, 1, 1, 1] = some 2
    ∧ (coRun (coInit 2) [0, 0, 0, 1, 1, 1]).map coAllDoneOwn = some true := by
  refine ⟨by decide, by decide⟩

/-- Invariant of the debounced_request transition system: when the lock is
free no request is registered; a fetching caller holds the lock with the
registration set; a registration implies a fetching caller; the shared-wait
branch is never entered; and the invocation counter equals the number of
callers that have started their own fetch. -/
structure CoInv {n : Nat} (s : CoState n) : Prop where
  lockFree : s.lock = none → s.active = false
  fetchLock : ∀ i, s.pc i = .fetching → s.active = true ∧ s.lock = some i
  activeFetch : s.active = true → ∃ i, s.pc i = .fetching
  noShared : ∀ i, s.pc i ≠ .waitShared ∧ s.pc i ≠ .doneShared
  count : s.invocations
      = (Finset.univ.filter
          (fun i => s.pc i = CallerPc.fetching ∨ s.pc i = CallerPc.doneOwn)).card

lemma coInv_init (n : Nat) : CoInv (coInit n) := by
  refine ⟨fun _ => rfl, ?_, ?_, ?_, ?_⟩
  · intro i h
    exact absurd h (by simp [coInit])
  · intro h
    exact absurd h (by simp [coInit])
  · intro i
    exact ⟨by simp [coInit], by simp [coInit]⟩
  · simp [coInit]

lemma coInv_step {n : Nat} {s s2 : CoState n} {i : Fin n} (hstep : coStep s i = some s2)
    (inv : CoInv s) : CoInv s2 := by
  unfold coStep at hstep
  cases hpc : s.pc i with
  | start =>
    rw [hpc] at hstep
    dsimp only at hstep
    by_cases hlock : s.lock = none
    · rw [if_pos hlock] at hstep
      have hactive : s.active = false := inv.lockFree hlock
      obtain rfl : _ = s2 := Option.some.inj hstep
      refine ⟨?_, ?_, ?_, ?_, ?_⟩
      · intro h
        exact absurd h (by simp)
      · intro j hj
        dsimp only at hj
        unfold updFin at hj
        by_cases hji : j = i
        · rw [if_pos hji] at hj
          exact absurd hj (by simp)
        · rw [if_neg hji] at hj
          have := (inv.fetchLock j hj).1
          rw [hactive] at this
          exact absurd this (by simp)
      · intro h
        dsimp only at h
        rw [hactive] at h
        exact absurd h (by simp)
      · intro j
        dsimp only
        unfold updFin
        by_cases hji : j = i
        · rw [if_pos hji]
          exact ⟨by simp, by simp⟩
        · rw [if_neg hji]
          exact inv.noShared j
      · dsimp only
        rw [inv.count]
        congr 1
        apply Finset.filter_congr
        intro j _
        unfold updFin
        by_cases hji : j = i
        · subst hji
          rw [if_pos rfl, hpc]
          simp
        · rw [if_neg hji]
    · rw [if_neg hlock] at hstep
      exact Option.noConfusion hstep
  | locked =>
    rw [hpc] at hstep
    dsimp only at hstep
    by_cases hlock : s.lock = some i
    · rw [if_pos hlock] at hstep
      by_cases hactive : s.active = true
      · exfalso
        obtain ⟨j, hj⟩ := inv.activeFetch hactive
        have hlj := (inv.fetchLock j hj).2
        have hji : j = i := Option.some.inj (hlj.symm.trans hlock)
        rw [hji, hpc] at hj
        exact CallerPc.noConfusion hj
      · rw [if_neg (by simpa using hactive)] at hstep
        rw [Bool.not_eq_true] at hactive
        obtain rfl : _ = s2 := Option.some.inj hstep
        refine ⟨?_, ?_, ?_, ?_, ?_⟩
        · intro h
          dsimp only at h
          rw [hlock] at h
          exact absurd h (by simp)
        · intro j hj
          dsimp only at hj ⊢
          unfold updFin at hj
          by_cases hji : j = i
          · subst hji
            exact ⟨rfl, hlock⟩
          · rw [if_neg hji] at hj
            have := (inv.fetchLock j hj).1
            rw [hactive] at this
            exact absurd this (by simp)
        · intro _
          refine ⟨i, ?_⟩
          dsimp only
          unfold updFin
          rw [if_pos rfl]
        · intro j
          dsimp only
          unfold updFin
          by_cases hji : j = i
          · rw [if_pos hji]
            exact ⟨by simp, by simp⟩
          · rw [if_neg hji]
            exact inv.noShared j
        · dsimp only
          rw [inv.count]
          have hins : (Finset.univ.filter
                (fun j => updFin s.pc i CallerPc.fetching j = CallerPc.fetching
                  ∨ updFin s.pc i CallerPc.fetching j = CallerPc.doneOwn))
              = insert i (Finset.univ.filter
                (fun j => s.pc j = CallerPc.fetching ∨ s.pc j = CallerPc.doneOwn)) := by
            ext j
            simp only [Finset.mem_filter, Finset.mem_insert, Finset.mem_univ, true_and]
            unfold updFin
            by_cases hji : j = i
            · subst hji
              simp
            · rw [if_neg hji]
              simp [hji]
          rw [hins, Finset.card_insert_of_not_mem]
          simp only [Finset.mem_filter, Finset.mem_univ, true_and, hpc]
          simp
    · rw [if_neg hlock] at hstep
      exact Option.noConfusion hstep
  | fetching =>
    rw [hpc] at hstep
    dsimp only at hstep
    by_cases hlock : s.lock = some i
    · rw [if_pos hlock] at hstep
      obtain rfl : _ = s2 := Option.some.inj hstep
      refine ⟨?_, ?_, ?_, ?_, ?_⟩
      · intro _
        rfl
      · intro j hj
        dsimp only at hj
        unfold updFin at hj
        by_cases hji : j = i
        · rw [if_pos hji] at hj
          exact absurd hj (by simp)
        · rw [if_neg hji] at hj
          have := (inv.fetchLock j hj).2
          have hji2 : j = i := Option.some.inj (this.symm.trans hlock)
          exact absurd hji2 hji
      · intro h
        exact absurd h (by simp)
      · intro j
        dsimp only
        unfold updFin
        by_cases hji : j = i
        · rw [if_pos hji]
          exact ⟨by simp, by simp⟩
        · rw [if_neg hji]
          exact inv.noShared j
      · dsimp only
        rw [inv.count]
        congr 1
        apply Finset.filter_congr
        intro j _
        unfold updFin
        by_cases hji : j = i
        · subst hji
          rw [if_pos rfl, hpc]
          simp
        · rw [if_neg hji]
    · rw [if_neg hlock] at hstep
      exact Option.noConfusion hstep
  | waitShared => exact absurd hpc (inv.noShared i).1
  | doneOwn =>
    rw [hpc] at hstep
    dsimp only at hstep
    exact Option.noConfusion hstep
  | doneShared =>
    rw [hpc] at hstep
    dsimp only at hstep
    exact Option.noConfusion hstep

lemma coInv_run {n : Nat} : ∀ (sched : List (Fin n)) (s s2 : CoState n), CoInv s →
    coRun s sched = some s2 → CoInv s2 := by
  intro sched
  induction sched with
  | nil =>
    intro s s2 inv hrun
    obtain rfl : s = s2 := Option.some.inj hrun
    exact inv
  | cons i rest ih =>
    intro s s2 inv hrun
    unfold coRun at hrun
    cases hstep : coStep s i with
    | none =>
      rw [hstep] at hrun
      exact Option.noConfusion hrun
    | some s1 =>
      rw [hstep] at hrun
      exact ih s1 s2 (coInv_step hstep inv) hrun

/-- Every run of the debounced_request transition system that completes all
`n` callers performs exactly `n` upstream invocations — one per caller, never
one shared by all — while at most one caller is fetching at any instant. -/
theorem coalescer_completed_runs {n : Nat} (sched : List (Fin n)) (s : CoState n)
    (hrun : coRun (coInit n) sched = some s) :
    ((∀ i, s.pc i = CallerPc.doneOwn ∨ s.pc i = CallerPc.doneShared) → s.invocations = n)
    ∧ (∀ i j, s.pc i = CallerPc.fetching → s.pc j = CallerPc.fetching → i = j) := by
  have inv := coInv_run sched (coInit n) s (coInv_init n) hrun
  constructor
  · intro hdone
    have hall : ∀ i, s.pc i = CallerPc.doneOwn := by
      intro i
      rcases hdone i with h | h
      · exact h
      · exact absurd h (inv.noShared i).2
    rw [inv.count]
    have : (Finset.univ.filter
        (fun i => s.pc i = CallerPc.fetching ∨ s.pc i = CallerPc.doneOwn))
        = Finset.univ := by
      ext i
      simp [hall i]
    rw [this]
    simp
  · intro i j hi hj
    have h1 := (inv.fetchLock i hi).2
    have h2 := (inv.fetchLock j hj).2
    exact Option.some.inj (h1.symm.trans h2)


/-! Helper lemmas about the rate limiter. -/

lemma waitT1_ge (s : RLState) (a : ℚ) : a ≤ waitT1 s a := by
  unfold waitT1
  by_cases h5 : 5 ≤ (pruneQ s a).length
  · rw [if_pos h5]
    cases hh : (pruneQ s a).head? with
    | some h =>
      dsimp only
      by_cases hw : (0 : ℚ) < 60 - (a - h) + 10
      · rw [if_pos hw]
        linarith
      · rw [if_neg hw]
    | none => exact le_refl a
  · rw [if_neg h5]

lemma waitT1_le_recordT2 (s : RLState) (a : ℚ) : waitT1 s a ≤ recordT2 s a := by
  unfold recordT2
  by_cases hd : a - s.last < 8
  · rw [if_pos hd]
    linarith
  · rw [if_neg hd]

lemma last_add_le_recordT2 (s : RLState) (a : ℚ) : s.last + 8 ≤ recordT2 s a := by
  have h1 := waitT1_ge s a
  unfold recordT2
  by_cases hd : a - s.last < 8
  · rw [if_pos hd]
    linarith
  · rw [if_neg hd]
    push_neg at hd
    linarith

lemma a_le_recordT2 (s : RLState) (a : ℚ) : a ≤ recordT2 s a :=
  le_trans (waitT1_ge s a) (waitT1_le_recordT2 s a)

lemma mem_pruneQ {s : RLState} {a t : ℚ} : t ∈ pruneQ s a ↔ t ∈ s.queue ∧ a - t < 60 := by
  unfold pruneQ
  simp [List.mem_filter]

lemma pruneQ_len_le (s : RLState) (a : ℚ) (hq : s.queue.length ≤ 6)
    (hsix : s.queue.length = 6 → ∀ h, s.queue.head? = some h → h + 70 ≤ s.last)
    (hla : s.last ≤ a) : (pruneQ s a).length ≤ 5 := by
  rcases Nat.lt_or_ge s.queue.length 6 with h6 | h6
  · calc (pruneQ s a).length ≤ s.queue.length := List.length_filter_le _ _
      _ ≤ 5 := by omega
  · have h6e : s.queue.length = 6 := le_antisymm hq h6
    cases hqq : s.queue with
    | nil => rw [hqq] at h6e; simp at h6e
    | cons c t =>
      have hh : s.queue.head? = some c := by rw [hqq]; rfl
      have h70 := hsix h6e c hh
      have hlen : t.length = 5 := by
        rw [hqq] at h6e
        simpa using h6e
      unfold pruneQ
      rw [hqq, List.filter_cons_of_neg]
      · calc (t.filter fun r => decide (a - r < 60)).length ≤ t.length :=
            List.length_filter_le _ _
          _ = 5 := hlen
      · simp only [decide_eq_true_eq, Decidable.not_not]
        push_neg
        linarith

lemma waitT1_of_full (s : RLState) (a : ℚ) (h5 : 5 ≤ (pruneQ s a).length) {h : ℚ}
    (hh : (pruneQ s a).head? = some h) : waitT1 s a = h + 70 := by
  have hmem : h ∈ pruneQ s a := List.mem_of_mem_head? (Option.mem_def.2 hh)
  have hlt : a - h < 60 := (mem_pruneQ.1 hmem).2
  unfold waitT1
  rw [if_pos h5, hh]
  dsimp only
  rw [if_pos (by linarith)]
  ring

/-- Invariant tying the rate-limiter state to the list `R` of all record times
so far: records are spaced by at least 8 s and any six consecutive records
span at least 60 s; the queue is a suffix of the records; a record that has
been pruned from the queue is at least 60 s older than the latest record;
every record is at most the latest one; the queue holds at most 6 entries and
can only hold 6 right after a full-window wait, whose oldest entry is then at
least 70 s older than the latest record. -/
structure RLInv (s : RLState) (R : List ℚ) : Prop where
  pw : R.Pairwise (fun x y => x + 8 ≤ y)
  window : ∀ (j : Nat) (x y : ℚ), R.get? j = some x → R.get? (j + 5) = some y → x + 60 ≤ y
  suffixQ : s.queue <:+ R
  pruned : ∀ r ∈ R, r ∉ s.queue → r + 60 ≤ s.last
  ub : ∀ r ∈ R, r ≤ s.last
  qlen : s.queue.length ≤ 6
  qsix : s.queue.length = 6 → ∀ h, s.queue.head? = some h → h + 70 ≤ s.last

lemma filter_isSuffix_of_sorted (l : List ℚ) (hl : l.Pairwise (· ≤ ·)) (p : ℚ → Bool)
    (hp : ∀ u v : ℚ, u ≤ v → p u = true → p v = true) : (l.filter p) <:+ l := by
  induction l with
  | nil => simp
  | cons h t ih =>
    have hpw := List.pairwise_cons.1 hl
    cases hph : p h with
    | true =>
      rw [List.filter_cons_of_pos hph, List.filter_eq_self.2 fun v hv => hp h v (hpw.1 v hv) hph]
    | false =>
      rw [List.filter_cons_of_neg (by simp [hph])]
      exact (ih hpw.2).trans (List.suffix_cons h t)

lemma rlInv_step {s : RLState} {R : List ℚ} (inv : RLInv s R) {a : ℚ} (hla : s.last ≤ a) :
    RLInv (rlStep s a) (R ++ [recordT2 s a]) := by
  have hqpw8 : s.queue.Pairwise (fun x y => x + 8 ≤ y) :=
    inv.pw.sublist inv.suffixQ.sublist
  have hqle : s.queue.Pairwise (· ≤ ·) := hqpw8.imp (by intro x y hxy; linarith)
  have hqsuffix : pruneQ s a <:+ s.queue := by
    unfold pruneQ
    refine filter_isSuffix_of_sorted s.queue hqle _ ?_
    intro u v huv hu
    simp only [decide_eq_true_eq] at hu ⊢
    linarith
  have hq5 : (pruneQ s a).length ≤ 5 := pruneQ_len_le s a inv.qlen inv.qsix hla
  have ht2a : a ≤ recordT2 s a := a_le_recordT2 s a
  have ht2last : s.last + 8 ≤ recordT2 s a := last_add_le_recordT2 s a
  have hout : ∀ r ∈ R, r ∉ pruneQ s a → r + 60 ≤ recordT2 s a := by
    intro r hr hnq
    by_cases hrq : r ∈ s.queue
    · have hge : ¬ (a - r < 60) := fun hc => hnq (mem_pruneQ.2 ⟨hrq, hc⟩)
      push_neg at hge
      linarith
    · have := inv.pruned r hr hrq
      linarith
  refine ⟨?_, ?_, ?_, ?_, ?_, ?_, ?_⟩
  · refine List.pairwise_append.2 ⟨inv.pw, by simp, ?_⟩
    intro x hx y hy
    rw [List.mem_singleton] at hy
    subst hy
    have := inv.ub x hx
    linarith
  · intro j x y hx hy
    have hylen : j + 5 < R.length + 1 := by
      have := (List.get?_eq_some.1 hy).1
      simpa using this
    rcases lt_or_ge (j + 5) R.length with hlt | hge
    · rw [List.get?_append (by omega)] at hx
      rw [List.get?_append hlt] at hy
      exact inv.window j x y hx hy
    · have hj5 : j + 5 = R.length := by omega
      have hy2 : y = recordT2 s a := by
        have hcat := List.get?_concat_length R (recordT2 s a)
        rw [← hj5] at hcat
        exact Option.some.inj (hy.symm.trans hcat)
      subst hy2
      have hj : j < R.length := by omega
      rw [List.get?_append hj] at hx
      have hxR : x ∈ R := List.get?_mem hx
      by_cases hxq : x ∈ pruneQ s a
      · obtain ⟨u, hu⟩ := hqsuffix.trans inv.suffixQ
        obtain ⟨i, hi⟩ := List.mem_iff_get?.1 hxq
        have hiq : i < (pruneQ s a).length := (List.get?_eq_some.1 hi).1
        have hiR : R.get? (u.length + i) = some x := by
          rw [← hu, List.get?_append_right (by omega)]
          simpa using hi
        have hnd : R.Nodup := inv.pw.imp (by
          intro x y hxy
          intro he
          rw [he] at hxy
          linarith)
        have hij : u.length + i = j := by
          have hltR : u.length + i < R.length := (List.get?_eq_some.1 hiR).1
          exact List.get?_inj hltR hnd (hiR.trans hx.symm)
        have hlenR : u.length + (pruneQ s a).length = R.length := by
          rw [← hu]
          simp
        have hqlen5 : (pruneQ s a).length = 5 := by omega
        have hulen : u.length = j := by omega
        have hheadq : (pruneQ s a).get? 0 = some x := by
          have hsplit : R.get? j = (pruneQ s a).get? (j - u.length) := by
            rw [← hu, List.get?_append_right (by omega)]
          rw [hulen, Nat.sub_self] at hsplit
          exact hsplit.symm.trans hx
        have hhead : (pruneQ s a).head? = some x := by
          rw [← List.get?_zero]
          exact hheadq
        have ht1 : waitT1 s a = x + 70 := waitT1_of_full s a (by omega) hhead
        have ht12 := waitT1_le_recordT2 s a
        linarith
      · exact hout x hxR hxq
  · obtain ⟨u, hu⟩ := hqsuffix.trans inv.suffixQ
    exact ⟨u, by rw [rlStep, ← List.append_assoc, hu]⟩
  · intro r hr hnq
    rcases List.mem_append.1 hr with hr | hr
    · rw [rlStep] at hnq
      have hnq1 : r ∉ pruneQ s a := fun h => hnq (List.mem_append.2 (Or.inl h))
      exact hout r hr hnq1
    · rw [List.mem_singleton] at hr
      subst hr
      exact absurd (List.mem_append.2 (Or.inr (List.mem_singleton.2 rfl))) hnq
  · intro r hr
    rcases List.mem_append.1 hr with hr | hr
    · have := inv.ub r hr
      rw [rlStep]
      dsimp only
      linarith
    · rw [List.mem_singleton] at hr
      subst hr
      rw [rlStep]
  · rw [rlStep]
    simp only [List.length_append, List.length_cons, List.length_nil]
    omega
  · intro hlen h hh
    rw [rlStep] at hlen hh ⊢
    simp only [List.length_append, List.length_cons, List.length_nil] at hlen
    have hqlen5 : (pruneQ s a).length = 5 := by omega
    have hhq : (pruneQ s a).head? = some h := by
      cases hq : pruneQ s a with
      | nil => rw [hq] at hqlen5; simp at hqlen5
      | cons c rest =>
        rw [hq] at hh
        simpa using hh
    have ht1 : waitT1 s a = h + 70 := waitT1_of_full s a (by omega) hhq
    have := waitT1_le_recordT2 s a
    dsimp only
    linarith

/-- Final rate-limiter state after a sequence of calls. -/
def rlRunState : RLState → List ℚ → RLState
  | s, [] => s
  | s, a :: as => rlRunState (rlStep s a) as

lemma rlInv_init : RLInv rlInit [] := by
  refine ⟨by simp, ?_, by simp [rlInit], by simp, by simp, by simp [rlInit], ?_⟩
  · intro j x y hx hy
    simp at hx
  · intro h6
    simp [rlInit] at h6

lemma rlInv_run : ∀ (as : List ℚ) (s : RLState) (R : List ℚ), RLInv s R →
    admissibleB s as = true → RLInv (rlRunState s as) (R ++ rlRecords s as) := by
  intro as
  induction as with
  | nil =>
    intro s R inv _
    simpa [rlRunState, rlRecords] using inv
  | cons a as ih =>
    intro s R inv hadm
    unfold admissibleB at hadm
    by_cases hla : s.last ≤ a
    · rw [if_pos hla] at hadm
      have inv2 := rlInv_step inv hla
      have h3 := ih (rlStep s a) (R ++ [recordT2 s a]) inv2 hadm
      simpa [rlRecords, rlRunState, List.append_assoc] using h3
    · rw [if_neg hla] at hadm
      exact absurd hadm (by simp)

/-- C5, confirmed: under the global request lock the calls to
_wait_for_rate_limit are sequential (each call entered no earlier than the
previous record — the `admissibleB` hypothesis), and then the recorded call
times satisfy both limits of the source: any two records are at least
`_request_delay = 8` seconds apart, and any six consecutive records span at
least `windowSeconds = 60` seconds, i.e. no rolling 60-second interval ever
contains more than `_max_requests_per_minute = 5` recorded calls. -/
theorem C5_rate_limiter (as : List ℚ) (hadm : admissibleB rlInit as = true) :
    (∀ (i j : Nat) (x y : ℚ), i < j → (rlRecords rlInit as).get? i = some x →
      (rlRecords rlInit as).get? j = some y → x + 8 ≤ y)
    ∧ (∀ (j : Nat) (x y : ℚ), (rlRecords rlInit as).get? j = some x →
      (rlRecords rlInit as).get? (j + 5) = some y → x + 60 ≤ y) := by
  have H := rlInv_run as rlInit [] rlInv_init hadm
  rw [List.nil_append] at H
  constructor
  · intro i j x y hij hx hy
    have hpw := H.pw
    rw [List.pairwise_iff_get] at hpw
    obtain ⟨hxlt, hxe⟩ := List.get?_eq_some.1 hx
    obtain ⟨hylt, hye⟩ := List.get?_eq_some.1 hy
    have hg := hpw ⟨i, hxlt⟩ ⟨j, hylt⟩ (by simpa using hij)
    rw [hxe, hye] at hg
    exact hg
  · exact fun j x y hx hy => H.window j x y hx hy

/-- C5, witness: six sequential calls entered at instants 0, 8, 16, 24, 32, 40
are recorded at 8, 16, 24, 32, 40, 86 — the sixth is pushed past the window —
so consecutive records are 8 s apart and the first and sixth are at least 60 s
apart. -/
theorem C5_rate_limiter_witness :
    admissibleB rlInit [0, 8, 16, 24, 32, 40] = true
    ∧ (8 : ℚ) + 8 ≤ 16
    ∧ (8 : ℚ) + 60 ≤ 86 := by
  have hadm : admissibleB rlInit [0, 8, 16, 24, 32, 40] = true := by
    norm_num [admissibleB, rlInit, rlStep, recordT2, waitT1, pruneQ]
  refine ⟨hadm, ?_, ?_⟩
  · exact (C5_rate_limiter [0, 8, 16, 24, 32, 40] hadm).1 0 1 8 16 (by norm_num)
      (by norm_num [rlRecords, rlInit, rlStep, recordT2, waitT1, pruneQ])
      (by norm_num [rlRecords, rlInit, rlStep, recordT2, waitT1, pruneQ])
  · exact (C5_rate_limiter [0, 8, 16, 24, 32, 40] hadm).2 0 8 86
      (by norm_num [rlRecords, rlInit, rlStep, recordT2, waitT1, pruneQ])
      (by norm_num [rlRecords, rlInit, rlStep, recordT2, waitT1, pruneQ])

end Kemi
